import Mathlib

/-!
Verification of the command registry and dispatch engine of `hans`
(`hans/session.py`), shallowly embedded in Lean 4.

Python dictionaries are modelled as insertion-ordered association lists
with unique keys; assignment `d[k] = v` replaces the value in place when
the key exists and appends otherwise, matching CPython semantics.

Command objects live in an explicit heap (`List Command`) and the command
trees hold references (indices) into it, so that object identity --
"the alias entry and the primary entry reference one Command, not a
copy" -- is expressible: `copy.deepcopy` allocates fresh references,
while plain assignment shares the reference.
-/

namespace Hans

/-- Python exceptions that the engine raises or routes. -/
inductive Exc where
  | keyError (msg : String)
  | typeError (msg : String)
  | valueError (msg : String)
  | attributeError (msg : String)
  | systemExit (code : Int)
  | otherExc (msg : String)
  deriving DecidableEq, Repr

/-- Modelled from the spec: the `Command` class (`hans/cmd.py` is not among
the sources at hand; the spec describes it as an invocable unit with a
primary name, aliases, an availability predicate and an invocation that
may raise, immutable once constructed and exposing no mapping protocol).
`avail` is the value of the availability predicate on the session's
context; `invoke` maps the argument list to the exception the invocation
raises, if any (`none` = returns normally). -/
structure Command where
  name : String
  aliases : List String
  avail : Bool
  invoke : List String → Option Exc

/-- A value of a command collection: a Command leaf (a reference into the
command heap) or an interior mapping. -/
inductive CmdTree where
  | cmd (r : Nat)
  | node (es : List (String × CmdTree))

/-- Entries of an interior mapping. -/
abbrev Entries := List (String × CmdTree)

/-- The command heap: reference `r` denotes `h[r]`. -/
abbrev Heap := List Command

/-- Default command used to totalise heap reads (never reached on
well-formed sessions). -/
def defaultCommand : Command := ⟨"", [], false, fun _ => none⟩

/-- Read a command from the heap. -/
def heapGet (h : Heap) (r : Nat) : Command := (h.get? r).getD defaultCommand

/-- Python `d[k]` / `k in d` on an insertion-ordered dict. -/
def alookup {α β : Type} [DecidableEq α] : List (α × β) → α → Option β
  | [], _ => none
  | (k, v) :: rest, x => if k = x then some v else alookup rest x

/-- Python `d[k] = v`: replace in place if present, else append. -/
def dictInsert {α β : Type} [DecidableEq α] : List (α × β) → α → β → List (α × β)
  | [], x, v => [(x, v)]
  | (k, w) :: rest, x, v =>
      if k = x then (k, v) :: rest else (k, w) :: dictInsert rest x v

/-- Python `d.pop(k)`: the removed value and the remaining dict, or `none`
when the key is absent. -/
def dictPop {α β : Type} [DecidableEq α] : List (α × β) → α → Option (β × List (α × β))
  | [], _ => none
  | (k, v) :: rest, x =>
      if k = x then some (v, rest)
      else
        match dictPop rest x with
        | none => none
        | some (w, rest') => some (w, (k, v) :: rest')

/-- Keys of a dict, in order. -/
def dkeys {α β : Type} : List (α × β) → List α
  | [] => []
  | (k, _) :: rest => k :: dkeys rest

section DictLemmas

variable {α β : Type} [DecidableEq α]

@[simp] theorem alookup_nil (x : α) : alookup ([] : List (α × β)) x = none := rfl

theorem alookup_cons (k : α) (v : β) (rest : List (α × β)) (x : α) :
    alookup ((k, v) :: rest) x = if k = x then some v else alookup rest x := rfl

theorem dictInsert_cons (k : α) (w : β) (rest : List (α × β)) (x : α) (v : β) :
    dictInsert ((k, w) :: rest) x v =
      if k = x then (k, v) :: rest else (k, w) :: dictInsert rest x v := rfl

theorem alookup_dictInsert_self (es : List (α × β)) (x : α) (v : β) :
    alookup (dictInsert es x v) x = some v := by
  induction es with
  | nil => simp [dictInsert, alookup]
  | cons p rest ih =>
      obtain ⟨k, w⟩ := p
      by_cases h : k = x
      · simp [dictInsert, alookup, h]
      · simp [dictInsert, alookup, h, ih]

theorem alookup_dictInsert_ne (es : List (α × β)) (x y : α) (v : β) (h : x ≠ y) :
    alookup (dictInsert es x v) y = alookup es y := by
  induction es with
  | nil => simp [dictInsert, alookup, h]
  | cons p rest ih =>
      obtain ⟨k, w⟩ := p
      by_cases hk : k = x
      · subst hk
        simp [dictInsert, alookup, h]
      · simp [dictInsert, alookup, hk, ih]

theorem alookup_append_ne (es : List (α × β)) (k : α) (v : β) (y : α)
    (h : k ≠ y) : alookup (es ++ [(k, v)]) y = alookup es y := by
  induction es with
  | nil => simp [alookup, h]
  | cons p rest ih =>
      obtain ⟨k', w⟩ := p
      by_cases hk : k' = y
      · simp [alookup, hk]
      · simp [alookup, hk, ih]

theorem alookup_eq_none_of_not_mem_dkeys (es : List (α × β)) (x : α)
    (h : x ∉ dkeys es) : alookup es x = none := by
  induction es with
  | nil => rfl
  | cons p rest ih =>
      obtain ⟨k, w⟩ := p
      simp [dkeys] at h
      simp [alookup, Ne.symm h.1, ih h.2]

theorem mem_dkeys_of_alookup (es : List (α × β)) (x : α) (v : β)
    (h : alookup es x = some v) : x ∈ dkeys es := by
  induction es with
  | nil => simp [alookup] at h
  | cons p rest ih =>
      obtain ⟨k, w⟩ := p
      by_cases hk : k = x
      · simp [dkeys, hk]
      · simp [alookup, hk] at h
        simp [dkeys, ih h]

theorem dkeys_dictInsert_of_mem (es : List (α × β)) (x : α) (v : β)
    (h : x ∈ dkeys es) : dkeys (dictInsert es x v) = dkeys es := by
  induction es with
  | nil => simp [dkeys] at h
  | cons p rest ih =>
      obtain ⟨k, w⟩ := p
      by_cases hk : k = x
      · simp [dictInsert, hk, dkeys]
      · simp [dkeys, hk] at h
        rcases h with h | h
        · exact absurd h.symm hk
        · simp [dictInsert, hk, dkeys, ih h]

theorem dkeys_dictInsert_of_not_mem (es : List (α × β)) (x : α) (v : β)
    (h : x ∉ dkeys es) : dkeys (dictInsert es x v) = dkeys es ++ [x] := by
  induction es with
  | nil => simp [dictInsert, dkeys]
  | cons p rest ih =>
      obtain ⟨k, w⟩ := p
      simp [dkeys] at h
      simp [dictInsert, Ne.symm h.1, dkeys, ih h.2]

omit [DecidableEq α] in
theorem dkeys_append {es fs : List (α × β)} :
    dkeys (es ++ fs) = dkeys es ++ dkeys fs := by
  induction es with
  | nil => simp [dkeys]
  | cons p rest ih =>
      obtain ⟨k, w⟩ := p
      simp [dkeys, ih]

end DictLemmas

mutual

/-- `copy.deepcopy` on a command tree: allocates a fresh heap cell for
every Command encountered, memoising already-copied references as CPython
does, and leaves the mapping structure (keys and their order) unchanged. -/
def deepCopyT (h : Heap) (memo : List (Nat × Nat)) :
    CmdTree → Heap × List (Nat × Nat) × CmdTree
  | .cmd r =>
      match alookup memo r with
      | some r' => (h, memo, .cmd r')
      | none =>
          let r' := h.length
          (h ++ [heapGet h r], dictInsert memo r r', .cmd r')
  | .node es =>
      let out := deepCopyEs h memo es
      (out.1, out.2.1, .node out.2.2)

/-- `copy.deepcopy` on the entry list of an interior mapping. -/
def deepCopyEs (h : Heap) (memo : List (Nat × Nat)) :
    Entries → Heap × List (Nat × Nat) × Entries
  | [] => (h, memo, [])
  | (k, t) :: rest =>
      let o1 := deepCopyT h memo t
      let o2 := deepCopyEs o1.1 o1.2.1 rest
      (o2.1, o2.2.1, (k, o1.2.2) :: o2.2.2)

end

/-- `CmdSession.deep_merge(a, b)`: for every `(k, v)` of `b` in order, if
`v` is a dict, recursively merge it into `a.setdefault(k, {})`; otherwise
assign `a[k] = v`. When `a` is a Command object (reachable through the
`setdefault` branch when an earlier value at the key was a Command), the
first iteration crashes: `a.setdefault` raises `AttributeError` when `v`
is a dict, and `a[k] = v` raises `TypeError` otherwise; with an empty `b`
the loop body never runs and nothing happens. -/
def deepMergeT : CmdTree → Entries → Except Exc CmdTree
  | a, [] => .ok a
  | .cmd _, (_, v) :: _ =>
      match v with
      | .node _ => .error (.attributeError "Command object has no attribute setdefault")
      | .cmd _ => .error (.typeError "Command object does not support item assignment")
  | .node aes, (k, v) :: rest =>
      match v with
      | .cmd r => deepMergeT (.node (dictInsert aes k (.cmd r))) rest
      | .node ves =>
          let cur := (alookup aes k).getD (.node [])
          let aes1 := if (alookup aes k).isSome then aes else aes ++ [(k, .node [])]
          match deepMergeT cur ves with
          | .error e => .error e
          | .ok merged => deepMergeT (.node (dictInsert aes1 k merged)) rest

/-- The inner loop of `CmdSession.__build_aliases`: `__cmds[a] = v` for
every alias `a` of the Command `v`, sharing the reference `r`. -/
def setAliases (r : Nat) : Entries → List String → Entries
  | acc, [] => acc
  | acc, a :: rest => setAliases r (dictInsert acc a (.cmd r)) rest

/-- The outer loop of `CmdSession.__build_aliases`: iterate over a
snapshot (`__cmds.copy().values()`) of the top-level values only, and for
each Command among them add one entry per alias. Values nested inside
sub-dicts are never visited. -/
def aliasLoop (h : Heap) : Entries → Entries → Entries
  | acc, [] => acc
  | acc, (_, .cmd r) :: rest => aliasLoop h (setAliases r acc (heapGet h r).aliases) rest
  | acc, (_, .node _) :: rest => aliasLoop h acc rest

/-- `CmdSession.__build_aliases`: deep-copy the collection, then add an
entry for every alias of every top-level Command, pointing at the same
(copied) Command reference. -/
def buildAliases (h : Heap) (es : Entries) : Heap × Entries :=
  let out := deepCopyEs h [] es
  (out.1, aliasLoop out.1 out.2.2 out.2.2)

/-- The merge loop of `CmdSession.refresh`: starting from the cleared
`__cmds`, deep-merge the alias-expanded copy of every registered
collection, in registration order. The `.cmd` fallback is unreachable:
merging a list of entries into a `.node` always yields a `.node`. -/
def refreshLoop : Heap → Entries → List (String × Entries) → Except Exc (Heap × Entries)
  | h, acc, [] => .ok (h, acc)
  | h, acc, (_, coll) :: rest =>
      let out := buildAliases h coll
      match deepMergeT (.node acc) out.2 with
      | .error e => .error e
      | .ok (.node acc') => refreshLoop out.1 acc' rest
      | .ok (.cmd _) => .error (.otherExc "unreachable")

/-- The completion projection (`NestedDict`): interior mappings become
interior mappings, Commands become the terminal marker `None`. -/
inductive Compl where
  | mark
  | sub (es : List (String × Compl))

mutual

/-- One value of `CmdSession.__build_completer`: a Command becomes the
terminal marker (`None`), a sub-dict is built recursively. -/
def buildComplT : CmdTree → Compl
  | .cmd _ => .mark
  | .node es => .sub (buildComplE es)

/-- `CmdSession.__build_completer`, returning the completer dict built for
the given command entries. -/
def buildComplE : Entries → List (String × Compl)
  | [] => []
  | (k, t) :: rest => (k, buildComplT t) :: buildComplE rest

end

/-- The engine state: the command heap, the registered collections
(`self.cmds`), the merged namespace (`self.__cmds`) and the completion
projection (`self.compl_dict`, pushed to the completer). -/
structure CmdSession where
  heap : Heap
  cmds : List (String × Entries)
  merged : Entries
  compl : List (String × Compl)

/-- `CmdSession.refresh`: clear `__cmds`, merge every registered
collection back in, and recompute + push the completion dictionary. -/
def CmdSession.refresh (s : CmdSession) : Except Exc CmdSession :=
  match refreshLoop s.heap [] s.cmds with
  | .error e => .error e
  | .ok out => .ok { heap := out.1, cmds := s.cmds, merged := out.2, compl := buildComplE out.2 }

/-- `CmdSession.extend`: store the collection under its name (overwriting
any previous collection at that name) and refresh. -/
def CmdSession.extend (s : CmdSession) (name : String) (coll : Entries) : Except Exc CmdSession :=
  CmdSession.refresh { s with cmds := dictInsert s.cmds name coll }

/-- `CmdSession.remove`: `self.cmds.pop(coll_name)` -- a `KeyError` when
the name was never registered, leaving the session untouched -- then
`refresh`. -/
def CmdSession.remove (s : CmdSession) (name : String) : Except Exc CmdSession :=
  match dictPop s.cmds name with
  | none => .error (.keyError name)
  | some out => CmdSession.refresh { s with cmds := out.2 }

/-- `CmdSession.__init__`: register the given commands under the key
`__init__` and refresh. -/
def CmdSession.init (h : Heap) (cmds : Entries) : Except Exc CmdSession :=
  CmdSession.refresh { heap := h, cmds := [("__init__", cmds)], merged := [], compl := [] }

/-- Python `f-string` quoting used in the error messages. -/
def q (s : String) : String := "\"" ++ s ++ "\""

/-- Python `" ".join(args)`. -/
def joinSp (ts : List String) : String := String.intercalate " " ts

/-- The token-walking loop of `CmdSession.parse`: while the current value
is a dict and tokens remain, pop the first token and descend, raising
`KeyError("Unknown command: ...")` when it is not a key. The loop stops
on a Command or on token exhaustion and the value is returned together
with the remaining tokens. The source's final branch (raise
`KeyError("Incomplete command: ...")` when the final value is neither a
dict nor a Command instance) is unrepresentable here: every tree value is
one of the two, so the branch never fires. -/
def parseLoop (orig : List String) : CmdTree → List String → Except Exc (CmdTree × List String)
  | .node es, cu :: rest =>
      match alookup es cu with
      | none => .error (.keyError ("Unknown command: " ++ q (joinSp orig)))
      | some v => parseLoop orig v rest
  | d, rem => .ok (d, rem)

/-- `CmdSession.parse`: walk the merged namespace (`self.__cmds`) along
the given tokens. -/
def CmdSession.parse (s : CmdSession) (args : List String) :
    Except Exc (CmdTree × List String) :=
  parseLoop args (.node s.merged) args

/-- Drop leading whitespace from a character list. -/
def dropWS : List Char → List Char
  | [] => []
  | c :: cs => if c.isWhitespace then dropWS cs else c :: cs

/-- Python `str.strip()`: remove leading and trailing whitespace. -/
def pyStrip (s : String) : String := ⟨(dropWS (dropWS s.data).reverse).reverse⟩

/-- Tokenizer for Python `str.split()`: split on whitespace runs, no empty
tokens; `acc` holds the reversed characters of the token being read. -/
def wsTokens : List Char → List Char → List String
  | [], [] => []
  | [], acc => [⟨acc.reverse⟩]
  | c :: cs, acc =>
      if c.isWhitespace then
        match acc with
        | [] => wsTokens cs []
        | _ => (⟨acc.reverse⟩ : String) :: wsTokens cs []
      else wsTokens cs (c :: acc)

/-- Python `str.split()` with no separator argument. -/
def pySplitWS (s : String) : List String := wsTokens s.data []

/-- `CmdSession.__getitem__`: parse `cmd.strip().split()`; an interior
mapping is a `TypeError` ("has several sub-commands"), a Command whose
availability predicate rejects the current context is a `ValueError`
("is not usable in the current context"). -/
def CmdSession.getItem (s : CmdSession) (line : String) : Except Exc (Nat × List String) :=
  match CmdSession.parse s (pySplitWS (pyStrip line)) with
  | .error e => .error e
  | .ok (.node _, _) => .error (.typeError (q line ++ " has several sub-commands!"))
  | .ok (.cmd r, args) =>
      if (heapGet s.heap r).avail then .ok (r, args)
      else .error (.valueError (q line ++ " is not usable in the current context!"))

def isKeyError : Exc → Bool
  | .keyError _ => true
  | _ => false

def isSystemExit : Exc → Bool
  | .systemExit _ => true
  | _ => false

/-- Python `str(e)` for the exceptions the dispatcher reports. -/
def excMsg : Exc → String
  | .keyError m => m
  | .typeError m => m
  | .valueError m => m
  | .attributeError m => m
  | .systemExit c => toString c
  | .otherExc m => m

/-- Observable outcome of one `CmdSession.handle` call: the invocations
performed (reference and argument list), the error lines printed via
`io.e`, and the exception propagated out of `handle`, if any. -/
structure HandleRes where
  calls : List (Nat × List String)
  errs : List String
  raised : Option Exc
  deriving DecidableEq, Repr

/-- `CmdSession.handle`: ignore blank input; look the line up and invoke
the command; a `KeyError` (from lookup or invocation) is reported as
"Command not found"; `SystemExit` is re-raised unmodified; every other
exception is reported as "Error while executing command" and `handle`
returns normally. -/
def CmdSession.handle (s : CmdSession) (line : String) : HandleRes :=
  if pyStrip line = "" then ⟨[], [], none⟩
  else
    match CmdSession.getItem s line with
    | .ok out =>
        match (heapGet s.heap out.1).invoke out.2 with
        | none => ⟨[out], [], none⟩
        | some e =>
            if isKeyError e then ⟨[out], ["Command not found: " ++ line], none⟩
            else if isSystemExit e then ⟨[out], [], some e⟩
            else ⟨[out], ["Error while executing command: " ++ excMsg e], none⟩
    | .error e =>
        if isKeyError e then ⟨[], ["Command not found: " ++ line], none⟩
        else if isSystemExit e then ⟨[], [], some e⟩
        else ⟨[], ["Error while executing command: " ++ excMsg e], none⟩

/-- The loop of `CmdSession.parse` again, additionally returning the final
state of the mutable `_args` list (what is left after the pops), for the
imperative embedding below. -/
def parseImpLoop (orig : List String) : CmdTree → List String → List String × Except Exc CmdTree
  | .node es, cu :: rest =>
      match alookup es cu with
      | none => (rest, .error (.keyError ("Unknown command: " ++ q (joinSp orig))))
      | some v => parseImpLoop orig v rest
  | d, rem => (rem, .ok d)

/-- Imperative embedding of `CmdSession.parse` over an explicit heap of
string lists (references are indices), making aliasing visible:
`_args = args.copy()` allocates a fresh list, every `pop(0)` mutates only
the fresh list, and the returned leftover list is the fresh reference.
The merged namespace is only read (`d = d[cu]` rebinds a local). -/
def parseImp (merged : Entries) (lh : List (List String)) (argsRef : Nat) :
    List (List String) × Nat × Except Exc (CmdTree × Nat) :=
  let orig := (lh.get? argsRef).getD []
  let fresh := lh.length
  let out := parseImpLoop orig (.node merged) orig
  (lh ++ [out.1], fresh, out.2.map (fun d => (d, fresh)))

/-- Pure walk used to phrase hypotheses about the shape of the namespace:
consume every token through interior mappings, ending at whatever value
the full token list denotes (`none` if a lookup fails or a Command is hit
strictly before the last token). -/
def descend : CmdTree → List String → Option CmdTree
  | t, [] => some t
  | .node es, x :: xs =>
      match alookup es x with
      | none => none
      | some v => descend v xs
  | .cmd _, _ :: _ => none


theorem parseLoop_cmd (orig : List String) (r : Nat) (rem : List String) :
    parseLoop orig (.cmd r) rem = .ok (.cmd r, rem) := by
  cases rem <;> rfl

theorem parseLoop_node_nil (orig : List String) (es : Entries) :
    parseLoop orig (.node es) [] = .ok (.node es, []) := rfl

theorem parseLoop_node_cons (orig : List String) (es : Entries) (cu : String)
    (rest : List String) :
    parseLoop orig (.node es) (cu :: rest) =
      match alookup es cu with
      | none => .error (.keyError ("Unknown command: " ++ q (joinSp orig)))
      | some v => parseLoop orig v rest := rfl

theorem descend_nil (t : CmdTree) : descend t [] = some t := by
  cases t <;> rfl

theorem descend_cmd_cons (r : Nat) (x : String) (xs : List String) :
    descend (.cmd r) (x :: xs) = none := rfl

theorem descend_node_cons (es : Entries) (x : String) (xs : List String) :
    descend (.node es) (x :: xs) =
      match alookup es x with
      | none => none
      | some v => descend v xs := rfl

theorem descend_parseLoop_full (p : List String) :
    ∀ (t u : CmdTree) (orig : List String), descend t p = some u →
      parseLoop orig t p = .ok (u, []) := by
  induction p with
  | nil =>
      intro t u orig h
      rw [descend_nil] at h
      injection h with h
      subst h
      cases t with
      | cmd r => exact parseLoop_cmd orig r []
      | node es => exact parseLoop_node_nil orig es
  | cons x xs ih =>
      intro t u orig h
      cases t with
      | cmd r => rw [descend_cmd_cons] at h; exact absurd h (by simp)
      | node es =>
          rw [descend_node_cons] at h
          rw [parseLoop_node_cons]
          cases halo : alookup es x with
          | none => rw [halo] at h; simp at h
          | some v => rw [halo] at h; exact ih v u orig h

theorem descend_parseLoop_early (p : List String) :
    ∀ (t : CmdTree) (r : Nat) (rest orig : List String),
      descend t p = some (.cmd r) →
      parseLoop orig t (p ++ rest) = .ok (.cmd r, rest) := by
  induction p with
  | nil =>
      intro t r rest orig h
      rw [descend_nil] at h
      injection h with h
      subst h
      exact parseLoop_cmd orig r rest
  | cons x xs ih =>
      intro t r rest orig h
      cases t with
      | cmd r' => rw [descend_cmd_cons] at h; exact absurd h (by simp)
      | node es =>
          rw [descend_node_cons] at h
          rw [List.cons_append, parseLoop_node_cons]
          cases halo : alookup es x with
          | none => rw [halo] at h; simp at h
          | some v => rw [halo] at h; exact ih v r rest orig h

theorem descend_parseLoop_unknown (p : List String) :
    ∀ (t : CmdTree) (es : Entries) (x : String) (rest orig : List String),
      descend t p = some (.node es) → alookup es x = none →
      parseLoop orig t (p ++ x :: rest) =
        .error (.keyError ("Unknown command: " ++ q (joinSp orig))) := by
  induction p with
  | nil =>
      intro t es x rest orig h hx
      rw [descend_nil] at h
      injection h with h
      subst h
      rw [List.nil_append, parseLoop_node_cons, hx]
  | cons y ys ih =>
      intro t es x rest orig h hx
      cases t with
      | cmd r => rw [descend_cmd_cons] at h; exact absurd h (by simp)
      | node fs =>
          rw [descend_node_cons] at h
          rw [List.cons_append, parseLoop_node_cons]
          cases halo : alookup fs y with
          | none => rw [halo] at h
          | some v => rw [halo] at h; exact ih v es x rest orig h hx

/-- Claim C3: when a prefix of the token sequence leads to a Command
before all tokens are consumed, `parse` does not fail: it returns the
located Command together with exactly the unconsumed tokens, in their
original order, as its arguments. -/
theorem c3_parse_cmd_leftover_args (s : CmdSession) (p rest : List String) (r : Nat)
    (h : descend (.node s.merged) p = some (.cmd r)) :
    s.parse (p ++ rest) = .ok (.cmd r, rest) :=
  descend_parseLoop_early p (.node s.merged) r rest (p ++ rest) h

/-- Command `X` of the worked resolver example: no aliases, always
available, invocation returns normally. -/
def cmdX : Command := ⟨"X", [], true, fun _ => none⟩

/-- A session whose merged namespace is `foo -> bar -> <Command X>`. -/
def sessFooBar : CmdSession :=
  { heap := [cmdX]
    cmds := [("__init__", [("foo", .node [("bar", .cmd 0)])])]
    merged := [("foo", .node [("bar", .cmd 0)])]
    compl := [("foo", .sub [("bar", .mark)])] }

theorem c3_witness :
    CmdSession.parse sessFooBar ["foo", "bar", "baz"] = .ok (.cmd 0, ["baz"]) :=
  c3_parse_cmd_leftover_args sessFooBar ["foo", "bar"] ["baz"] 0 rfl

/-- Claim C2 counterexample: on a namespace whose root is an interior
mapping, `resolve([])` does not fail with any lookup error -- it returns
the root mapping itself together with the (empty) leftover tokens. -/
theorem c2_counterexample :
    CmdSession.parse sessFooBar [] = .ok (.node sessFooBar.merged, []) ∧
      ∀ e, CmdSession.parse sessFooBar [] ≠ .error e :=
  ⟨rfl, fun _ h => nomatch h⟩

/-- Claim C2 (amended): when resolution exhausts all tokens while the
current node is still an interior mapping, `parse` does not raise
`IncompleteCommand`: it returns the interior mapping with no leftover
tokens (the source's incomplete-command branch only fires for values that
are neither a dict nor a Command, which cannot occur in a well-typed
tree); the user-visible failure is produced by `__getitem__`, which
raises `TypeError("... has several sub-commands!")` on a mapping
result. -/
theorem c2_amended_parse_returns_mapping :
    (∀ (s : CmdSession) (args : List String) (es : Entries),
        descend (.node s.merged) args = some (.node es) →
        s.parse args = .ok (.node es, []))
    ∧ (∀ (s : CmdSession) (line : String) (es : Entries),
        descend (.node s.merged) (pySplitWS (pyStrip line)) = some (.node es) →
        s.getItem line = .error (.typeError (q line ++ " has several sub-commands!"))) := by
  constructor
  · intro s args es h
    exact descend_parseLoop_full args (.node s.merged) (.node es) args h
  · intro s line es h
    have hp : s.parse (pySplitWS (pyStrip line)) = .ok (.node es, []) :=
      descend_parseLoop_full _ (.node s.merged) (.node es) _ h
    simp [CmdSession.getItem, hp]

theorem c2_amended_witness :
    CmdSession.parse sessFooBar [] = .ok (.node sessFooBar.merged, []) ∧
      CmdSession.getItem sessFooBar "foo" =
        .error (.typeError "\"foo\" has several sub-commands!") :=
  ⟨c2_amended_parse_returns_mapping.1 sessFooBar [] sessFooBar.merged rfl,
   c2_amended_parse_returns_mapping.2 sessFooBar "foo" [("bar", .cmd 0)] rfl⟩

theorem dictPop_eq_none {α β : Type} [DecidableEq α] (es : List (α × β)) (x : α)
    (h : alookup es x = none) : dictPop es x = none := by
  induction es with
  | nil => rfl
  | cons p rest ih =>
      obtain ⟨k, v⟩ := p
      by_cases hk : k = x
      · rw [alookup_cons, if_pos hk] at h
        exact absurd h (by simp)
      · rw [alookup_cons, if_neg hk] at h
        simp [dictPop, hk, ih h]

/-- Claim C9: removing a collection key that was never registered is a
hard lookup failure (`KeyError`), not silently ignored; `pop` raises
before any state is touched, so no refresh happens and no new session
state is produced. -/
theorem c9_remove_unregistered (s : CmdSession) (name : String)
    (h : alookup s.cmds name = none) :
    s.remove name = .error (.keyError name) ∧ ∀ s', s.remove name ≠ .ok s' := by
  have hp : dictPop s.cmds name = none := dictPop_eq_none s.cmds name h
  constructor
  · simp [CmdSession.remove, hp]
  · intro s' hcontra
    rw [CmdSession.remove, hp] at hcontra
    exact Except.noConfusion hcontra

theorem c9_witness :
    CmdSession.remove sessFooBar "plugins" = .error (.keyError "plugins") ∧
      ∀ s', CmdSession.remove sessFooBar "plugins" ≠ .ok s' :=
  c9_remove_unregistered sessFooBar "plugins" rfl

/-- Claim C10: `parse` is read-only. In the imperative embedding
`parseImp` (an explicit heap of string lists), the heap restricted to the
caller's references is unchanged whether parsing succeeds or fails, the
`_args` copy lives at a fresh reference distinct from the caller's
argument list, the leftover-token list returned on success is that fresh
reference (a copy, not the caller's list object), and the merged
namespace and registered collections are only read (the embedding takes
them as pure values and returns no modified versions). -/
theorem c10_parse_readonly (merged : Entries) (lh : List (List String)) (argsRef : Nat)
    (h : argsRef < lh.length) :
    (parseImp merged lh argsRef).1.take lh.length = lh
    ∧ (parseImp merged lh argsRef).2.1 = lh.length
    ∧ argsRef ≠ (parseImp merged lh argsRef).2.1
    ∧ (∀ d fr, (parseImp merged lh argsRef).2.2 = .ok (d, fr) →
        fr = (parseImp merged lh argsRef).2.1)
    ∧ (parseImp merged lh argsRef).1.get? lh.length
        = some (parseImpLoop ((lh.get? argsRef).getD []) (.node merged)
            ((lh.get? argsRef).getD [])).1 := by
  refine ⟨?_, rfl, ?_, ?_, ?_⟩
  · simp [parseImp, List.take_left]
  · exact Nat.ne_of_lt h
  · intro d fr hok
    simp only [parseImp] at hok
    cases hres : (parseImpLoop ((lh.get? argsRef).getD []) (.node merged)
        ((lh.get? argsRef).getD [])).2 with
    | error e => rw [hres] at hok; exact Except.noConfusion hok
    | ok d' =>
        rw [hres] at hok
        simp [Except.map] at hok
        exact hok.2.symm
  · simp [parseImp, List.get?_concat_length]

theorem c10_witness :
    0 < List.length [["foo", "bar", "baz"]] ∧
      ((parseImp sessFooBar.merged [["foo", "bar", "baz"]] 0).1.take 1
          = [["foo", "bar", "baz"]]
        ∧ (parseImp sessFooBar.merged [["foo", "bar", "baz"]] 0).2.1 = 1
        ∧ 0 ≠ (parseImp sessFooBar.merged [["foo", "bar", "baz"]] 0).2.1
        ∧ (∀ d fr,
            (parseImp sessFooBar.merged [["foo", "bar", "baz"]] 0).2.2 = .ok (d, fr) →
            fr = (parseImp sessFooBar.merged [["foo", "bar", "baz"]] 0).2.1)
        ∧ (parseImp sessFooBar.merged [["foo", "bar", "baz"]] 0).1.get? 1
            = some (parseImpLoop [["foo", "bar", "baz"]].head! (.node sessFooBar.merged)
                [["foo", "bar", "baz"]].head!).1) := by
  constructor
  · decide
  · exact c10_parse_readonly sessFooBar.merged [["foo", "bar", "baz"]] 0 (by decide)

/-- Claim C7: when dispatch resolves a line to a Command whose
availability predicate rejects the current context, `__getitem__` raises
`ValueError("... is not usable in the current context!")`, which `handle`
catches and reports as an error line; `handle` returns normally and the
Command's invoke is never called (`calls = []`). -/
theorem c7_unavailable_not_invoked (s : CmdSession) (line : String) (r : Nat)
    (rest : List String)
    (hblank : ¬ pyStrip line = "")
    (hres : s.parse (pySplitWS (pyStrip line)) = .ok (.cmd r, rest))
    (hav : (heapGet s.heap r).avail = false) :
    s.handle line =
      ⟨[], ["Error while executing command: " ++
        (q line ++ " is not usable in the current context!")], none⟩ := by
  have hgi : s.getItem line =
      .error (.valueError (q line ++ " is not usable in the current context!")) := by
    simp [CmdSession.getItem, hres, hav]
  simp [CmdSession.handle, hblank, hgi, isKeyError, isSystemExit, excMsg]

/-- The `lock` command: availability predicate rejects the context. -/
def cmdLock : Command := ⟨"lock", [], false, fun _ => none⟩

/-- The `boom` command: its invocation raises `SystemExit(0)`. -/
def cmdBoom : Command := ⟨"boom", [], true, fun _ => some (.systemExit 0)⟩

/-- The `bad` command: its invocation raises an ordinary exception. -/
def cmdBad : Command := ⟨"bad", [], true, fun _ => some (.otherExc "kaputt")⟩

/-- A session exercising the dispatcher failure branches. -/
def sessDispatch : CmdSession :=
  { heap := [cmdLock, cmdBoom, cmdBad]
    cmds := [("__init__", [("lock", .cmd 0), ("boom", .cmd 1), ("bad", .cmd 2)])]
    merged := [("lock", .cmd 0), ("boom", .cmd 1), ("bad", .cmd 2)]
    compl := [("lock", .mark), ("boom", .mark), ("bad", .mark)] }

theorem c7_witness :
    CmdSession.handle sessDispatch "lock" =
      ⟨[], ["Error while executing command: \"lock\" is not usable in the current context!"],
        none⟩ :=
  c7_unavailable_not_invoked sessDispatch "lock" 0 [] (by decide) rfl rfl

/-- Claim C8: a Command invocation that raises `SystemExit` propagates out
of `handle` unmodified; every other exception raised during lookup or
invocation is caught inside `handle`, converted to a single formatted
error line, and `handle` returns normally (`raised = none`). -/
theorem c8_exception_routing :
    (∀ (s : CmdSession) (line : String) (r : Nat) (args : List String) (c : Int),
        ¬ pyStrip line = "" →
        s.getItem line = .ok (r, args) →
        (heapGet s.heap r).invoke args = some (.systemExit c) →
        s.handle line = ⟨[(r, args)], [], some (.systemExit c)⟩)
    ∧ (∀ (s : CmdSession) (line : String) (r : Nat) (args : List String) (e : Exc),
        ¬ pyStrip line = "" →
        s.getItem line = .ok (r, args) →
        (heapGet s.heap r).invoke args = some e →
        isSystemExit e = false →
        s.handle line =
          ⟨[(r, args)],
           [if isKeyError e then "Command not found: " ++ line
            else "Error while executing command: " ++ excMsg e],
           none⟩)
    ∧ (∀ (s : CmdSession) (line : String) (e : Exc),
        ¬ pyStrip line = "" →
        s.getItem line = .error e →
        isSystemExit e = false →
        s.handle line =
          ⟨[],
           [if isKeyError e then "Command not found: " ++ line
            else "Error while executing command: " ++ excMsg e],
           none⟩) := by
  refine ⟨?_, ?_, ?_⟩
  · intro s line r args c hblank hgi hinv
    simp [CmdSession.handle, hblank, hgi, hinv, isKeyError, isSystemExit]
  · intro s line r args e hblank hgi hinv hse
    by_cases hke : isKeyError e
    · simp [CmdSession.handle, hblank, hgi, hinv, hke, hse]
    · simp [CmdSession.handle, hblank, hgi, hinv, hke, hse]
  · intro s line e hblank hgi hse
    by_cases hke : isKeyError e
    · simp [CmdSession.handle, hblank, hgi, hke, hse]
    · simp [CmdSession.handle, hblank, hgi, hke, hse]

theorem c8_witness :
    CmdSession.handle sessDispatch "boom" = ⟨[(1, [])], [], some (.systemExit 0)⟩
    ∧ CmdSession.handle sessDispatch "bad" =
        ⟨[(2, [])], ["Error while executing command: kaputt"], none⟩
    ∧ CmdSession.handle sessDispatch "nope" =
        ⟨[], ["Command not found: nope"], none⟩ :=
  ⟨c8_exception_routing.1 sessDispatch "boom" 1 [] 0 (by decide) rfl rfl,
   c8_exception_routing.2.1 sessDispatch "bad" 2 [] (.otherExc "kaputt")
      (by decide) rfl rfl rfl,
   c8_exception_routing.2.2 sessDispatch "nope"
      (.keyError "Unknown command: \"nope\"") (by decide) rfl rfl⟩

theorem deepMergeT_nil (a : CmdTree) : deepMergeT a [] = .ok a := by
  cases a <;> rfl

theorem deepMergeT_cmd_cons (r : Nat) (k2 : String) (v2 : CmdTree) (rest2 : Entries) :
    deepMergeT (.cmd r) ((k2, v2) :: rest2) =
      match v2 with
      | .node _ => .error (.attributeError "Command object has no attribute setdefault")
      | .cmd _ => .error (.typeError "Command object does not support item assignment") := by
  cases v2 <;> rfl

theorem deepMergeT_node_cons_cmd (aes : Entries) (k : String) (r : Nat) (rest : Entries) :
    deepMergeT (.node aes) ((k, .cmd r) :: rest) =
      deepMergeT (.node (dictInsert aes k (.cmd r))) rest := rfl

theorem deepMergeT_node_cons_node (aes : Entries) (k : String) (ves rest : Entries) :
    deepMergeT (.node aes) ((k, .node ves) :: rest) =
      match deepMergeT ((alookup aes k).getD (.node [])) ves with
      | .error e => .error e
      | .ok merged =>
          deepMergeT (.node (dictInsert
            (if (alookup aes k).isSome then aes else aes ++ [(k, .node [])]) k merged)) rest := rfl

theorem mem_dkeys_of_mem {α β : Type} (es : List (α × β)) (k : α) (v : β) :
    (k, v) ∈ es → k ∈ dkeys es := by
  induction es with
  | nil => intro h; simp at h
  | cons p rest ih =>
      intro h
      obtain ⟨k', w⟩ := p
      rcases List.mem_cons.mp h with he | hr
      · injection he with h1 h2
        subst h1
        simp [dkeys]
      · simp [dkeys, ih hr]

theorem deepMergeT_preserves_absent (bes : Entries) :
    ∀ (aes : Entries) (x : String) (t : CmdTree),
      x ∉ dkeys bes → deepMergeT (.node aes) bes = .ok t →
      ∃ res, t = .node res ∧ alookup res x = alookup aes x := by
  induction bes with
  | nil =>
      intro aes x t _ h
      rw [deepMergeT_nil] at h
      injection h with h
      exact ⟨aes, h.symm, rfl⟩
  | cons p rest ih =>
      obtain ⟨k, v⟩ := p
      intro aes x t hx h
      have hxk : x ≠ k := by simp [dkeys] at hx; exact hx.1
      have hxrest : x ∉ dkeys rest := by simp [dkeys] at hx; exact hx.2
      cases v with
      | cmd r =>
          rw [deepMergeT_node_cons_cmd] at h
          obtain ⟨res, ht, hl⟩ := ih (dictInsert aes k (.cmd r)) x t hxrest h
          refine ⟨res, ht, ?_⟩
          rw [hl, alookup_dictInsert_ne _ _ _ _ (Ne.symm hxk)]
      | node ves =>
          rw [deepMergeT_node_cons_node] at h
          cases hm : deepMergeT ((alookup aes k).getD (.node [])) ves with
          | error e => rw [hm] at h; simp at h
          | ok merged =>
              rw [hm] at h
              obtain ⟨res, ht, hl⟩ := ih _ x t hxrest h
              refine ⟨res, ht, ?_⟩
              rw [hl, alookup_dictInsert_ne _ _ _ _ (Ne.symm hxk)]
              by_cases hs : (alookup aes k).isSome
              · simp [hs]
              · simp [hs, alookup_append_ne _ _ _ _ (Ne.symm hxk)]

/-- Claim C1 (amended): on a colliding top-level key, last-registration
wins when the later value is a Command: the merge replaces the earlier
value entirely, whether it was a Command or a sub-tree. In the other
direction the claim fails: deep-merging a non-empty sub-tree into a
position currently holding a Command does not replace the Command -- the
merge crashes (`AttributeError` from `Command.setdefault` or `TypeError`
from item assignment on the Command). -/
theorem c1_amended_merge_override :
    (∀ (aes bes : Entries) (k : String) (r : Nat) (t : CmdTree),
        (dkeys bes).Nodup → (k, CmdTree.cmd r) ∈ bes →
        deepMergeT (.node aes) bes = .ok t →
        ∃ res, t = .node res ∧ alookup res k = some (.cmd r))
    ∧ (∀ (aes : Entries) (k : String) (r : Nat) (kv : String × CmdTree)
        (ves rest : Entries),
        alookup aes k = some (.cmd r) →
        ∃ e, deepMergeT (.node aes) ((k, .node (kv :: ves)) :: rest) = .error e ∧
          ((∃ m, e = .attributeError m) ∨ (∃ m, e = .typeError m))) := by
  constructor
  · intro aes bes
    induction bes generalizing aes with
    | nil => intro k r t _ hmem; simp at hmem
    | cons p rest ih =>
        obtain ⟨k', v'⟩ := p
        intro k r t hnd hmem h
        rw [dkeys] at hnd
        have hk'rest : k' ∉ dkeys rest := (List.nodup_cons.mp hnd).1
        have hndrest : (dkeys rest).Nodup := (List.nodup_cons.mp hnd).2
        rcases List.mem_cons.mp hmem with he | hmemr
        · injection he with he1 he2
          subst he1
          subst he2
          rw [deepMergeT_node_cons_cmd] at h
          obtain ⟨res, ht, hl⟩ :=
            deepMergeT_preserves_absent rest (dictInsert aes k (.cmd r)) k t hk'rest h
          exact ⟨res, ht, by rw [hl, alookup_dictInsert_self]⟩
        · cases v' with
          | cmd r1 =>
              rw [deepMergeT_node_cons_cmd] at h
              exact ih (dictInsert aes k' (.cmd r1)) k r t hndrest hmemr h
          | node ves =>
              rw [deepMergeT_node_cons_node] at h
              cases hm : deepMergeT ((alookup aes k').getD (.node [])) ves with
              | error e => rw [hm] at h; simp at h
              | ok merged =>
                  rw [hm] at h
                  exact ih _ k r t hndrest hmemr h
  · intro aes k r kv ves rest halo
    obtain ⟨k2, v2⟩ := kv
    cases v2 with
    | node ws =>
        refine ⟨.attributeError "Command object has no attribute setdefault", ?_, .inl ⟨_, rfl⟩⟩
        rw [deepMergeT_node_cons_node, halo]
        rfl
    | cmd r2 =>
        refine ⟨.typeError "Command object does not support item assignment", ?_, .inr ⟨_, rfl⟩⟩
        rw [deepMergeT_node_cons_node, halo]
        rfl

/-- Claim C1 counterexample: deep-merging a later sub-tree onto an
earlier Command at the same key does not replace the Command -- the merge
raises instead of producing any merged tree. -/
theorem c1_counterexample :
    deepMergeT (.node [("x", CmdTree.cmd 0)]) [("x", CmdTree.node [("y", CmdTree.cmd 1)])] =
      .error (.typeError "Command object does not support item assignment")
    ∧ ∀ t, deepMergeT (.node [("x", CmdTree.cmd 0)])
        [("x", CmdTree.node [("y", CmdTree.cmd 1)])] ≠ .ok t :=
  ⟨rfl, fun _ h => nomatch h⟩

theorem c1_witness :
    (∃ res, CmdTree.node [("x", CmdTree.cmd 1)] = CmdTree.node res ∧
      alookup res "x" = some (CmdTree.cmd 1))
    ∧ (∃ res, CmdTree.node [("x", CmdTree.cmd 1)] = CmdTree.node res ∧
      alookup res "x" = some (CmdTree.cmd 1))
    ∧ (∃ e, deepMergeT (.node [("x", CmdTree.cmd 0)])
        [("x", CmdTree.node [("y", CmdTree.cmd 1)])] = .error e ∧
          ((∃ m, e = .attributeError m) ∨ (∃ m, e = .typeError m))) :=
  ⟨c1_amended_merge_override.1 [("x", .cmd 0)] [("x", .cmd 1)] "x" 1
      (CmdTree.node [("x", CmdTree.cmd 1)]) (by simp [dkeys]) (by simp) rfl,
   c1_amended_merge_override.1 [("x", .node [("sub", .cmd 0)])] [("x", .cmd 1)] "x" 1
      (CmdTree.node [("x", CmdTree.cmd 1)]) (by simp [dkeys]) (by simp) rfl,
   c1_amended_merge_override.2 [("x", .cmd 0)] "x" 0 ("y", .cmd 1) [] [] rfl⟩

/-- Claim C4: a successful `remove(key)` fully rebuilds the merged
namespace from the remaining collections alone (`refreshLoop` over the
post-pop registry), together with the completion projection; consequently
any token path whose walk hits a key that is absent from the rebuilt
namespace fails with the `Unknown command` lookup error -- the merged
namespace never reflects the removed collection's stale entries. -/
theorem remove_eq_refresh (s : CmdSession) (name : String) (v : Entries)
    (rest : List (String × Entries)) (hpop : dictPop s.cmds name = some (v, rest)) :
    s.remove name = CmdSession.refresh { s with cmds := rest } := by
  rw [CmdSession.remove, hpop]

theorem refresh_ok_inv (s s2 : CmdSession) (hok : s.refresh = .ok s2) :
    ∃ out, refreshLoop s.heap [] s.cmds = .ok out ∧
      s2 = { heap := out.1, cmds := s.cmds, merged := out.2, compl := buildComplE out.2 } := by
  unfold CmdSession.refresh at hok
  cases hrl : refreshLoop s.heap [] s.cmds with
  | error e => rw [hrl] at hok; simp at hok
  | ok out =>
      rw [hrl] at hok
      simp only [Except.ok.injEq] at hok
      exact ⟨out, rfl, hok.symm⟩

theorem c4_remove_rebuilds (s s' : CmdSession) (name : String) (v : Entries)
    (rest : List (String × Entries))
    (hpop : dictPop s.cmds name = some (v, rest))
    (hok : s.remove name = .ok s') :
    s'.cmds = rest
    ∧ refreshLoop s.heap [] rest = .ok (s'.heap, s'.merged)
    ∧ s'.compl = buildComplE s'.merged
    ∧ (∀ (p : List String) (x : String) (rest2 : List String) (es : Entries),
        descend (.node s'.merged) p = some (.node es) → alookup es x = none →
        s'.parse (p ++ x :: rest2) =
          .error (.keyError ("Unknown command: " ++ q (joinSp (p ++ x :: rest2))))) := by
  rw [remove_eq_refresh s name v rest hpop] at hok
  obtain ⟨out, hrl, hs'⟩ := refresh_ok_inv _ s' hok
  subst hs'
  refine ⟨rfl, hrl, rfl, ?_⟩
  intro p x rest2 es hd hx
  exact descend_parseLoop_unknown p _ es x rest2 _ hd hx

/-- The `go` command of the end-to-end removal scenario. -/
def cmdGo : Command := ⟨"go", [], true, fun _ => none⟩

/-- The `stop` command of the end-to-end removal scenario. -/
def cmdStop : Command := ⟨"stop", [], true, fun _ => none⟩

/-- A session with two registered collections: `a` providing `go` and `b`
providing `stop`. -/
def sessTwo : CmdSession :=
  { heap := [cmdGo, cmdStop]
    cmds := [("a", [("go", .cmd 0)]), ("b", [("stop", .cmd 1)])]
    merged := [("go", .cmd 0), ("stop", .cmd 1)]
    compl := [("go", .mark), ("stop", .mark)] }

/-- `sessTwo` after `remove("b")`: rebuilt from collection `a` alone (the
rebuild deep-copies `go`, appending it to the heap as reference 2). -/
def sessTwoAfter : CmdSession :=
  { heap := [cmdGo, cmdStop, cmdGo]
    cmds := [("a", [("go", .cmd 0)])]
    merged := [("go", .cmd 2)]
    compl := [("go", .mark)] }

theorem c4_witness :
    CmdSession.remove sessTwo "b" = .ok sessTwoAfter
    ∧ sessTwoAfter.cmds = [("a", [("go", CmdTree.cmd 0)])]
    ∧ refreshLoop sessTwo.heap [] [("a", [("go", CmdTree.cmd 0)])]
        = .ok (sessTwoAfter.heap, sessTwoAfter.merged)
    ∧ CmdSession.parse sessTwoAfter ["stop"] =
        .error (.keyError "Unknown command: \"stop\"") :=
  have happ := c4_remove_rebuilds sessTwo sessTwoAfter "b" [("stop", .cmd 1)]
      [("a", [("go", CmdTree.cmd 0)])] rfl rfl
  ⟨rfl, happ.1, happ.2.1,
    happ.2.2.2 [] "stop" [] sessTwoAfter.merged rfl rfl⟩

mutual

/-- All Command references in the tree point below `n` (into the live
heap). -/
def refsBelowT (n : Nat) : CmdTree → Bool
  | .cmd r => decide (r < n)
  | .node es => refsBelowEs n es

/-- All Command references in the entries point below `n`. -/
def refsBelowEs (n : Nat) : Entries → Bool
  | [] => true
  | (_, t) :: rest => refsBelowT n t && refsBelowEs n rest

end

mutual

/-- Well-formed tree: every interior mapping has pairwise-distinct keys
(a real Python dict). -/
def wfT : CmdTree → Bool
  | .cmd _ => true
  | .node es => wfE es

/-- Well-formed entries: no duplicate keys, values well-formed. -/
def wfE : Entries → Bool
  | [] => true
  | (k, t) :: rest => (alookup rest k).isNone && wfT t && wfE rest

end

/-- Invariant of the deepcopy memo table relative to the original heap
`h0` and the current heap `hcur`: every memoised copy is a live reference
holding the same Command as its original. -/
def MemoOK (h0 hcur : Heap) (memo : List (Nat × Nat)) : Prop :=
  ∀ r r', alookup memo r = some r' → r' < hcur.length ∧ heapGet hcur r' = heapGet h0 r

mutual

/-- Relation between a tree and its deep copy: same mapping structure
(keys, order, constructor shapes), with every Command reference replaced
by a live reference of `hout` holding the same Command value. -/
inductive TShape (h0 hout : Heap) : CmdTree → CmdTree → Prop where
  | cmd (r r' : Nat) : r' < hout.length → heapGet hout r' = heapGet h0 r →
      TShape h0 hout (.cmd r) (.cmd r')
  | node (es es' : Entries) : EShape h0 hout es es' →
      TShape h0 hout (.node es) (.node es')

/-- Pointwise `TShape` on entries, keys unchanged. -/
inductive EShape (h0 hout : Heap) : Entries → Entries → Prop where
  | nil : EShape h0 hout [] []
  | cons (k : String) (t t' : CmdTree) (rest rest' : Entries) :
      TShape h0 hout t t' → EShape h0 hout rest rest' →
      EShape h0 hout ((k, t) :: rest) ((k, t') :: rest')

end

theorem heapGet_mono (h h' : Heap) (r : Nat) (hp : h <+: h') (hr : r < h.length) :
    heapGet h' r = heapGet h r := by
  obtain ⟨t, rfl⟩ := hp
  unfold heapGet
  rw [List.get?_append hr]

theorem heapGet_concat_self (h : Heap) (c : Command) :
    heapGet (h ++ [c]) h.length = c := by
  unfold heapGet
  rw [List.get?_concat_length]
  rfl

mutual

theorem TShape_mono (h0 hout hout' : Heap) (hp : hout <+: hout') :
    ∀ {t t' : CmdTree}, TShape h0 hout t t' → TShape h0 hout' t t' := fun h =>
  match h with
  | .cmd r r' hlt heq =>
      .cmd r r' (Nat.lt_of_lt_of_le hlt hp.length_le)
        (by rw [heapGet_mono hout hout' r' hp hlt, heq])
  | .node es es' hes => .node es es' (EShape_mono h0 hout hout' hp hes)

theorem EShape_mono (h0 hout hout' : Heap) (hp : hout <+: hout') :
    ∀ {es es' : Entries}, EShape h0 hout es es' → EShape h0 hout' es es' := fun h =>
  match h with
  | .nil => .nil
  | .cons k t t' rest rest' ht hrest =>
      .cons k t t' rest rest' (TShape_mono h0 hout hout' hp ht)
        (EShape_mono h0 hout hout' hp hrest)

end

theorem MemoOK_nil (h0 hcur : Heap) : MemoOK h0 hcur [] := by
  intro r r' hr
  simp [alookup] at hr

theorem deepCopyT_cmd (h : Heap) (memo : List (Nat × Nat)) (r : Nat) :
    deepCopyT h memo (.cmd r) =
      match alookup memo r with
      | some r' => (h, memo, .cmd r')
      | none => (h ++ [heapGet h r], dictInsert memo r h.length, .cmd h.length) := rfl

theorem deepCopyT_node (h : Heap) (memo : List (Nat × Nat)) (es : Entries) :
    deepCopyT h memo (.node es) =
      ((deepCopyEs h memo es).1, (deepCopyEs h memo es).2.1,
        .node (deepCopyEs h memo es).2.2) := rfl

theorem deepCopyEs_nil (h : Heap) (memo : List (Nat × Nat)) :
    deepCopyEs h memo [] = (h, memo, []) := rfl

theorem deepCopyEs_cons (h : Heap) (memo : List (Nat × Nat)) (k : String)
    (t : CmdTree) (rest : Entries) :
    deepCopyEs h memo ((k, t) :: rest) =
      ((deepCopyEs (deepCopyT h memo t).1 (deepCopyT h memo t).2.1 rest).1,
       (deepCopyEs (deepCopyT h memo t).1 (deepCopyT h memo t).2.1 rest).2.1,
       (k, (deepCopyT h memo t).2.2) ::
         (deepCopyEs (deepCopyT h memo t).1 (deepCopyT h memo t).2.1 rest).2.2) := rfl

mutual

theorem deepCopyT_spec (h0 : Heap) :
    ∀ (t : CmdTree) (hcur : Heap) (memo : List (Nat × Nat)),
      h0 <+: hcur → MemoOK h0 hcur memo → refsBelowT h0.length t = true →
      hcur <+: (deepCopyT hcur memo t).1
      ∧ MemoOK h0 (deepCopyT hcur memo t).1 (deepCopyT hcur memo t).2.1
      ∧ TShape h0 (deepCopyT hcur memo t).1 t (deepCopyT hcur memo t).2.2 := fun t =>
  match t with
  | .cmd r => by
      intro hcur memo hpre hmo hrb
      have hrlt : r < h0.length := by
        simpa [refsBelowT] using hrb
      rw [deepCopyT_cmd]
      cases hm : alookup memo r with
      | some r' =>
          exact ⟨List.prefix_refl _, hmo,
            .cmd r r' (hmo r r' hm).1 (hmo r r' hm).2⟩
      | none =>
          have hsame : heapGet hcur r = heapGet h0 r :=
            heapGet_mono h0 hcur r hpre (by exact hrlt)
          refine ⟨List.prefix_append _ _, ?_, ?_⟩
          · intro a b hab
            by_cases har : a = r
            · subst har
              rw [alookup_dictInsert_self] at hab
              injection hab with hab
              subst hab
              constructor
              · simp
              · rw [heapGet_concat_self, hsame]
            · rw [alookup_dictInsert_ne _ _ _ _ (fun he => har he.symm)] at hab
              obtain ⟨hb1, hb2⟩ := hmo a b hab
              constructor
              · simp
                omega
              · rw [heapGet_mono hcur _ b (List.prefix_append _ _) hb1, hb2]
          · exact .cmd r hcur.length (by simp)
              (by rw [heapGet_concat_self, hsame])
  | .node es => by
      intro hcur memo hpre hmo hrb
      have hes := deepCopyEs_spec h0 es hcur memo hpre hmo
        (by simpa [refsBelowT] using hrb)
      rw [deepCopyT_node]
      exact ⟨hes.1, hes.2.1, .node es _ hes.2.2⟩

theorem deepCopyEs_spec (h0 : Heap) :
    ∀ (es : Entries) (hcur : Heap) (memo : List (Nat × Nat)),
      h0 <+: hcur → MemoOK h0 hcur memo → refsBelowEs h0.length es = true →
      hcur <+: (deepCopyEs hcur memo es).1
      ∧ MemoOK h0 (deepCopyEs hcur memo es).1 (deepCopyEs hcur memo es).2.1
      ∧ EShape h0 (deepCopyEs hcur memo es).1 es (deepCopyEs hcur memo es).2.2 := fun es =>
  match es with
  | [] => by
      intro hcur memo hpre hmo _
      rw [deepCopyEs_nil]
      exact ⟨List.prefix_refl _, hmo, .nil⟩
  | (k, t) :: rest => by
      intro hcur memo hpre hmo hrb
      have hrb1 : refsBelowT h0.length t = true := by
        simp [refsBelowEs] at hrb
        exact hrb.1
      have hrb2 : refsBelowEs h0.length rest = true := by
        simp [refsBelowEs] at hrb
        exact hrb.2
      have h1 := deepCopyT_spec h0 t hcur memo hpre hmo hrb1
      have h2 := deepCopyEs_spec h0 rest (deepCopyT hcur memo t).1
        (deepCopyT hcur memo t).2.1 (hpre.trans h1.1) h1.2.1 hrb2
      rw [deepCopyEs_cons]
      refine ⟨h1.1.trans h2.1, h2.2.1, ?_⟩
      exact .cons k t _ rest _
        (TShape_mono h0 (deepCopyT hcur memo t).1 _ h2.1 h1.2.2) h2.2.2

end

theorem alookup_eq_none_iff {α β : Type} [DecidableEq α] (es : List (α × β)) (x : α) :
    alookup es x = none ↔ x ∉ dkeys es := by
  induction es with
  | nil => simp [alookup, dkeys]
  | cons p rest ih =>
      obtain ⟨k, w⟩ := p
      by_cases hk : k = x
      · subst hk
        simp [alookup, dkeys]
      · simp [alookup, dkeys, hk, ih, Ne.symm hk]

theorem EShape_dkeys (h0 hout : Heap) :
    ∀ {es es' : Entries}, EShape h0 hout es es' → dkeys es' = dkeys es := fun h =>
  match h with
  | .nil => rfl
  | .cons k t t' rest rest' _ hrest => by
      rw [dkeys, dkeys, EShape_dkeys h0 hout hrest]

theorem EShape_alookup_none (h0 hout : Heap) {es es' : Entries}
    (h : EShape h0 hout es es') (x : String) :
    alookup es' x = none ↔ alookup es x = none := by
  rw [alookup_eq_none_iff, alookup_eq_none_iff, EShape_dkeys h0 hout h]

theorem EShape_alookup_cmd (h0 hout : Heap) :
    ∀ {es es' : Entries}, EShape h0 hout es es' → ∀ (x : String) (r : Nat),
      alookup es x = some (.cmd r) →
      ∃ r', alookup es' x = some (.cmd r') ∧ r' < hout.length ∧
        heapGet hout r' = heapGet h0 r := fun h =>
  match h with
  | .nil => by
      intro x r hx
      simp [alookup] at hx
  | .cons k t t' rest rest' ht hrest => by
      intro x r hx
      by_cases hk : k = x
      · subst hk
        rw [alookup_cons, if_pos rfl] at hx
        injection hx with hx
        subst hx
        cases ht with
        | cmd r r' hlt heq =>
            exact ⟨r', by rw [alookup_cons, if_pos rfl], hlt, heq⟩
      · rw [alookup_cons, if_neg hk] at hx
        obtain ⟨r', h1, h2, h3⟩ := EShape_alookup_cmd h0 hout hrest x r hx
        exact ⟨r', by rw [alookup_cons, if_neg hk]; exact h1, h2, h3⟩

theorem EShape_alookup_node (h0 hout : Heap) :
    ∀ {es es' : Entries}, EShape h0 hout es es' → ∀ (x : String) (ses : Entries),
      alookup es x = some (.node ses) →
      ∃ ses', alookup es' x = some (.node ses') ∧ EShape h0 hout ses ses' := fun h =>
  match h with
  | .nil => by
      intro x ses hx
      simp [alookup] at hx
  | .cons k t t' rest rest' ht hrest => by
      intro x ses hx
      by_cases hk : k = x
      · subst hk
        rw [alookup_cons, if_pos rfl] at hx
        injection hx with hx
        subst hx
        cases ht with
        | node ses ses' hsub =>
            exact ⟨ses', by rw [alookup_cons, if_pos rfl], hsub⟩
      · rw [alookup_cons, if_neg hk] at hx
        obtain ⟨ses', h1, h2⟩ := EShape_alookup_node h0 hout hrest x ses hx
        exact ⟨ses', by rw [alookup_cons, if_neg hk]; exact h1, h2⟩

mutual

theorem wfT_shape (h0 hout : Heap) :
    ∀ {t t' : CmdTree}, TShape h0 hout t t' → wfT t = true → wfT t' = true := fun h =>
  match h with
  | .cmd _ _ _ _ => fun _ => rfl
  | .node es es' hes => fun hw => by
      rw [show wfT (.node es') = wfE es' from rfl]
      rw [show wfT (.node es) = wfE es from rfl] at hw
      exact wfE_shape h0 hout hes hw

theorem wfE_shape (h0 hout : Heap) :
    ∀ {es es' : Entries}, EShape h0 hout es es' → wfE es = true → wfE es' = true := fun h =>
  match h with
  | .nil => fun _ => rfl
  | .cons k t t' rest rest' ht hrest => fun hw => by
      rw [show wfE ((k, t) :: rest) =
        ((alookup rest k).isNone && wfT t && wfE rest) from rfl] at hw
      simp only [Bool.and_eq_true] at hw
      rw [show wfE ((k, t') :: rest') =
        ((alookup rest' k).isNone && wfT t' && wfE rest') from rfl]
      simp only [Bool.and_eq_true]
      refine ⟨⟨?_, wfT_shape h0 hout ht hw.1.2⟩, wfE_shape h0 hout hrest hw.2⟩
      rw [Option.isNone_iff_eq_none] at hw ⊢
      rw [EShape_alookup_none h0 hout hrest k]
      exact hw.1.1

end

/-- The alias names contributed by the top-level Commands of the entries
(the names `__build_aliases` assigns, in processing order). -/
def topAliases (h : Heap) : Entries → List String
  | [] => []
  | (_, .cmd r) :: rest => (heapGet h r).aliases ++ topAliases h rest
  | (_, .node _) :: rest => topAliases h rest

theorem EShape_topAliases (h0 hout : Heap) :
    ∀ {es es' : Entries}, EShape h0 hout es es' →
      topAliases hout es' = topAliases h0 es := fun h =>
  match h with
  | .nil => rfl
  | .cons k t t' rest rest' ht hrest => by
      cases ht with
      | cmd r r' hlt heq =>
          rw [show topAliases hout ((k, .cmd r') :: rest')
              = (heapGet hout r').aliases ++ topAliases hout rest' from rfl,
            show topAliases h0 ((k, .cmd r) :: rest)
              = (heapGet h0 r).aliases ++ topAliases h0 rest from rfl,
            heq, EShape_topAliases h0 hout hrest]
      | node ses ses' hsub =>
          rw [show topAliases hout ((k, .node ses') :: rest')
              = topAliases hout rest' from rfl,
            show topAliases h0 ((k, .node ses) :: rest)
              = topAliases h0 rest from rfl,
            EShape_topAliases h0 hout hrest]

theorem topAliases_append (h : Heap) (es fs : Entries) :
    topAliases h (es ++ fs) = topAliases h es ++ topAliases h fs := by
  induction es with
  | nil => simp [topAliases]
  | cons p rest ih =>
      obtain ⟨k, t⟩ := p
      cases t <;> simp [topAliases, ih]

theorem alookup_decomp {α β : Type} [DecidableEq α] (es : List (α × β)) (x : α) (v : β)
    (h : alookup es x = some v) :
    ∃ l1 l2, es = l1 ++ (x, v) :: l2 ∧ alookup l1 x = none := by
  induction es with
  | nil => simp [alookup] at h
  | cons p rest ih =>
      obtain ⟨k, w⟩ := p
      by_cases hk : k = x
      · subst hk
        rw [alookup_cons, if_pos rfl] at h
        injection h with h
        subst h
        exact ⟨[], rest, rfl, rfl⟩
      · rw [alookup_cons, if_neg hk] at h
        obtain ⟨l1, l2, he, hl⟩ := ih h
        refine ⟨(k, w) :: l1, l2, by rw [he, List.cons_append], ?_⟩
        rw [alookup_cons, if_neg hk, hl]

theorem setAliases_nil (r : Nat) (acc : Entries) : setAliases r acc [] = acc := rfl

theorem setAliases_cons (r : Nat) (acc : Entries) (a : String) (rest : List String) :
    setAliases r acc (a :: rest) = setAliases r (dictInsert acc a (.cmd r)) rest := rfl

theorem aliasLoop_nil (h : Heap) (acc : Entries) : aliasLoop h acc [] = acc := rfl

theorem aliasLoop_cons_cmd (h : Heap) (acc : Entries) (k : String) (r : Nat)
    (rest : Entries) :
    aliasLoop h acc ((k, .cmd r) :: rest) =
      aliasLoop h (setAliases r acc (heapGet h r).aliases) rest := rfl

theorem aliasLoop_cons_node (h : Heap) (acc : Entries) (k : String) (es rest : Entries) :
    aliasLoop h acc ((k, .node es) :: rest) = aliasLoop h acc rest := rfl

theorem topAliases_cons_cmd (h : Heap) (k : String) (r : Nat) (rest : Entries) :
    topAliases h ((k, .cmd r) :: rest) = (heapGet h r).aliases ++ topAliases h rest := rfl

theorem topAliases_cons_node (h : Heap) (k : String) (es rest : Entries) :
    topAliases h ((k, .node es) :: rest) = topAliases h rest := rfl

theorem setAliases_lookup (r : Nat) (x : String) :
    ∀ (as : List String) (acc : Entries),
      alookup (setAliases r acc as) x =
        if x ∈ as then some (.cmd r) else alookup acc x := by
  intro as
  induction as with
  | nil => intro acc; simp [setAliases_nil]
  | cons a rest ih =>
      intro acc
      rw [setAliases_cons, ih]
      by_cases hx : x ∈ rest
      · simp [hx]
      · simp only [hx, if_false]
        by_cases hxa : x = a
        · subst hxa
          simp [alookup_dictInsert_self]
        · rw [alookup_dictInsert_ne _ _ _ _ (fun he => hxa he.symm)]
          simp [List.mem_cons, hxa, hx]

theorem aliasLoop_not_alias (h : Heap) (x : String) :
    ∀ (ss acc : Entries), x ∉ topAliases h ss →
      alookup (aliasLoop h acc ss) x = alookup acc x := by
  intro ss
  induction ss with
  | nil => intro acc _; rfl
  | cons p rest ih =>
      obtain ⟨k, t⟩ := p
      intro acc hx
      cases t with
      | cmd r =>
          rw [topAliases_cons_cmd] at hx
          simp only [List.mem_append, not_or] at hx
          rw [aliasLoop_cons_cmd, ih _ hx.2, setAliases_lookup, if_neg hx.1]
      | node es =>
          rw [topAliases_cons_node] at hx
          rw [aliasLoop_cons_node, ih _ hx]

theorem aliasLoop_alias (h : Heap) (a : String) :
    ∀ (ss1 : Entries) (k : String) (r : Nat) (ss2 acc : Entries),
      a ∈ (heapGet h r).aliases → a ∉ topAliases h ss2 →
      alookup (aliasLoop h acc (ss1 ++ (k, .cmd r) :: ss2)) a = some (.cmd r) := by
  intro ss1
  induction ss1 with
  | nil =>
      intro k r ss2 acc ha hna
      rw [List.nil_append, aliasLoop_cons_cmd,
        aliasLoop_not_alias h a ss2 _ hna, setAliases_lookup, if_pos ha]
  | cons p rest ih =>
      obtain ⟨k', t'⟩ := p
      intro k r ss2 acc ha hna
      cases t' with
      | cmd r1 =>
          rw [List.cons_append, aliasLoop_cons_cmd]
          exact ih k r ss2 _ ha hna
      | node es1 =>
          rw [List.cons_append, aliasLoop_cons_node]
          exact ih k r ss2 acc ha hna

theorem wfE_dictInsert_cmd (x : String) (r : Nat) :
    ∀ (es : Entries), wfE es = true → wfE (dictInsert es x (.cmd r)) = true := by
  intro es
  induction es with
  | nil =>
      intro _
      rfl
  | cons p rest ih =>
      obtain ⟨k, t⟩ := p
      intro hw
      rw [show wfE ((k, t) :: rest) = ((alookup rest k).isNone && wfT t && wfE rest) from rfl] at hw
      simp only [Bool.and_eq_true] at hw
      by_cases hk : k = x
      · subst hk
        rw [dictInsert_cons, if_pos rfl]
        rw [show wfE ((k, CmdTree.cmd r) :: rest)
          = ((alookup rest k).isNone && wfT (.cmd r) && wfE rest) from rfl]
        simp only [Bool.and_eq_true]
        exact ⟨⟨hw.1.1, rfl⟩, hw.2⟩
      · rw [dictInsert_cons, if_neg hk]
        rw [show wfE ((k, t) :: dictInsert rest x (.cmd r))
          = ((alookup (dictInsert rest x (.cmd r)) k).isNone && wfT t
              && wfE (dictInsert rest x (.cmd r))) from rfl]
        simp only [Bool.and_eq_true]
        refine ⟨⟨?_, hw.1.2⟩, ih hw.2⟩
        rw [alookup_dictInsert_ne _ _ _ _ (fun he => hk he.symm)]
        exact hw.1.1

theorem setAliases_wf (r : Nat) :
    ∀ (as : List String) (acc : Entries), wfE acc = true →
      wfE (setAliases r acc as) = true := by
  intro as
  induction as with
  | nil => intro acc hw; rw [setAliases_nil]; exact hw
  | cons a rest ih =>
      intro acc hw
      rw [setAliases_cons]
      exact ih _ (wfE_dictInsert_cmd a r acc hw)

theorem aliasLoop_wf (h : Heap) :
    ∀ (ss acc : Entries), wfE acc = true → wfE (aliasLoop h acc ss) = true := by
  intro ss
  induction ss with
  | nil => intro acc hw; exact hw
  | cons p rest ih =>
      obtain ⟨k, t⟩ := p
      intro acc hw
      cases t with
      | cmd r =>
          rw [aliasLoop_cons_cmd]
          exact ih _ (setAliases_wf r _ acc hw)
      | node es =>
          rw [aliasLoop_cons_node]
          exact ih acc hw

theorem dictInsert_of_absent {α β : Type} [DecidableEq α] (es : List (α × β)) (x : α)
    (v : β) (h : alookup es x = none) : dictInsert es x v = es ++ [(x, v)] := by
  induction es with
  | nil => rfl
  | cons p rest ih =>
      obtain ⟨k, w⟩ := p
      rw [alookup_cons] at h
      by_cases hk : k = x
      · rw [if_pos hk] at h
        exact absurd h (by simp)
      · rw [if_neg hk] at h
        rw [dictInsert_cons, if_neg hk, ih h, List.cons_append]

theorem dictInsert_append_self {α β : Type} [DecidableEq α] (es : List (α × β)) (x : α)
    (w v : β) (h : alookup es x = none) :
    dictInsert (es ++ [(x, w)]) x v = es ++ [(x, v)] := by
  induction es with
  | nil => simp [dictInsert]
  | cons p rest ih =>
      obtain ⟨k, u⟩ := p
      rw [alookup_cons] at h
      by_cases hk : k = x
      · rw [if_pos hk] at h
        exact absurd h (by simp)
      · rw [if_neg hk] at h
        rw [List.cons_append, dictInsert_cons, if_neg hk, ih h, List.cons_append]

theorem alookup_append_self {α β : Type} [DecidableEq α] (es : List (α × β)) (x : α)
    (v : β) (h : alookup es x = none) : alookup (es ++ [(x, v)]) x = some v := by
  induction es with
  | nil => simp [alookup]
  | cons p rest ih =>
      obtain ⟨k, u⟩ := p
      rw [alookup_cons] at h
      by_cases hk : k = x
      · rw [if_pos hk] at h
        exact absurd h (by simp)
      · rw [if_neg hk] at h
        rw [List.cons_append, alookup_cons, if_neg hk, ih h]

theorem wfE_cons_parts (k : String) (v : CmdTree) (rest : Entries)
    (h : wfE ((k, v) :: rest) = true) :
    alookup rest k = none ∧ wfT v = true ∧ wfE rest = true := by
  rw [show wfE ((k, v) :: rest)
    = ((alookup rest k).isNone && wfT v && wfE rest) from rfl] at h
  simp only [Bool.and_eq_true] at h
  exact ⟨Option.isNone_iff_eq_none.mp h.1.1, h.1.2, h.2⟩

theorem dkeys_not_mem_of_alookup_none {α β : Type} [DecidableEq α]
    (es : List (α × β)) (k : α) (h : alookup es k = none) :
    ∀ k2, k2 ∈ dkeys es → k ≠ k2 := by
  intro k2 hk2 he
  rw [he, alookup_eq_none_iff] at h
  exact h hk2

theorem deepMergeT_ok_of_wf (bes : Entries) (aes : Entries) (hwf : wfE bes = true)
    (hfresh : ∀ k, k ∈ dkeys bes → alookup aes k = none) :
    ∃ res, deepMergeT (.node aes) bes = .ok (.node res)
      ∧ (∀ x r, alookup bes x = some (.cmd r) → alookup res x = some (.cmd r))
      ∧ (∀ x, alookup bes x = none → alookup res x = alookup aes x) := by
  match bes with
  | [] =>
      refine ⟨aes, deepMergeT_nil _, ?_, fun x _ => rfl⟩
      intro x r hx
      simp [alookup] at hx
  | (k, .cmd r) :: rest =>
      have hw := wfE_cons_parts k (.cmd r) rest hwf
      have hkrest : alookup rest k = none := hw.1
      have haesk : alookup aes k = none :=
        hfresh k (by rw [dkeys]; exact List.mem_cons_self _ _)
      have hkne := dkeys_not_mem_of_alookup_none rest k hkrest
      have hfresh2 : ∀ k2, k2 ∈ dkeys rest →
          alookup (dictInsert aes k (.cmd r)) k2 = none := by
        intro k2 hk2
        rw [alookup_dictInsert_ne _ _ _ _ (hkne k2 hk2)]
        exact hfresh k2 (by rw [dkeys]; exact List.mem_cons_of_mem _ hk2)
      obtain ⟨res, hmg, hc, hn⟩ :=
        deepMergeT_ok_of_wf rest (dictInsert aes k (.cmd r)) hw.2.2 hfresh2
      refine ⟨res, ?_, ?_, ?_⟩
      · rw [deepMergeT_node_cons_cmd]
        exact hmg
      · intro x r0 hx
        by_cases hkx : k = x
        · subst hkx
          rw [alookup_cons, if_pos rfl] at hx
          injection hx with hx
          injection hx with hx
          subst hx
          rw [hn k hkrest, alookup_dictInsert_self]
        · rw [alookup_cons, if_neg hkx] at hx
          exact hc x r0 hx
      · intro x hx
        by_cases hkx : k = x
        · subst hkx
          rw [alookup_cons, if_pos rfl] at hx
          exact absurd hx (by simp)
        · rw [alookup_cons, if_neg hkx] at hx
          rw [hn x hx, alookup_dictInsert_ne _ _ _ _ hkx]
  | (k, .node ves) :: rest =>
      have hw := wfE_cons_parts k (.node ves) rest hwf
      have hkrest : alookup rest k = none := hw.1
      have haesk : alookup aes k = none :=
        hfresh k (by rw [dkeys]; exact List.mem_cons_self _ _)
      have hkne := dkeys_not_mem_of_alookup_none rest k hkrest
      have hwves : wfE ves = true := hw.2.1
      obtain ⟨resIn, hmgIn, hcIn, hnIn⟩ :=
        deepMergeT_ok_of_wf ves [] hwves (fun _ _ => rfl)
      have hstep : deepMergeT (.node aes) ((k, .node ves) :: rest) =
          deepMergeT (.node (aes ++ [(k, .node resIn)])) rest := by
        rw [deepMergeT_node_cons_node, haesk]
        simp only [Option.getD_none, Option.isSome_none, Bool.false_eq_true,
          if_false, hmgIn]
        rw [dictInsert_append_self aes k _ _ haesk]
      have hfresh2 : ∀ k2, k2 ∈ dkeys rest →
          alookup (aes ++ [(k, .node resIn)]) k2 = none := by
        intro k2 hk2
        rw [alookup_append_ne _ _ _ _ (hkne k2 hk2)]
        exact hfresh k2 (by rw [dkeys]; exact List.mem_cons_of_mem _ hk2)
      obtain ⟨res, hmg, hc, hn⟩ :=
        deepMergeT_ok_of_wf rest (aes ++ [(k, .node resIn)]) hw.2.2 hfresh2
      refine ⟨res, ?_, ?_, ?_⟩
      · rw [hstep]
        exact hmg
      · intro x r0 hx
        by_cases hkx : k = x
        · subst hkx
          rw [alookup_cons, if_pos rfl] at hx
          exact absurd hx (by simp)
        · rw [alookup_cons, if_neg hkx] at hx
          exact hc x r0 hx
      · intro x hx
        by_cases hkx : k = x
        · subst hkx
          rw [alookup_cons, if_pos rfl] at hx
          exact absurd hx (by simp)
        · rw [alookup_cons, if_neg hkx] at hx
          rw [hn x hx, alookup_append_ne _ _ _ _ hkx]
termination_by sizeOf bes
decreasing_by
  all_goals simp_wf
  all_goals omega

theorem refreshLoop_nil (h : Heap) (acc : Entries) :
    refreshLoop h acc [] = .ok (h, acc) := rfl

theorem refreshLoop_cons (h : Heap) (acc : Entries) (n : String) (coll : Entries)
    (rest : List (String × Entries)) :
    refreshLoop h acc ((n, coll) :: rest) =
      match deepMergeT (.node acc) (buildAliases h coll).2 with
      | .error e => .error e
      | .ok (.node acc') => refreshLoop (buildAliases h coll).1 acc' rest
      | .ok (.cmd _) => .error (.otherExc "unreachable") := rfl

theorem refresh_eq_of_loop (s : CmdSession) (out : Heap × Entries)
    (h : refreshLoop s.heap [] s.cmds = .ok out) :
    s.refresh = .ok { heap := out.1
                      cmds := s.cmds
                      merged := out.2
                      compl := buildComplE out.2 } := by
  unfold CmdSession.refresh
  rw [h]

/-- Claim C5: for a top-level Command carrying N aliases (no collision
with other names, as the spec itself declares alias collisions undefined
behaviour), rebuilding a session with that collection yields a merged
namespace in which the primary name and all N aliases -- N+1 distinct
peer names -- are bound to the identical Command reference (one shared
heap cell, not copies), holding the same Command value as the original. -/
theorem c5_aliases_share_instance
    (h : Heap) (coll : Entries) (k : String) (r : Nat)
    (cname : String) (m0 : Entries) (c0 : List (String × Compl))
    (hwf : wfE coll = true)
    (hrb : refsBelowEs h.length coll = true)
    (hlook : alookup coll k = some (.cmd r))
    (hkal : k ∉ topAliases h coll)
    (hnodupal : (topAliases h coll).Nodup) :
    ∃ (s : CmdSession) (r' : Nat),
      CmdSession.refresh ⟨h, [(cname, coll)], m0, c0⟩ = .ok s
      ∧ (k :: (heapGet h r).aliases).Nodup
      ∧ alookup s.merged k = some (.cmd r')
      ∧ (∀ a, a ∈ (heapGet h r).aliases → alookup s.merged a = some (.cmd r'))
      ∧ heapGet s.heap r' = heapGet h r := by
  have hspec := deepCopyEs_spec h coll h [] (List.prefix_refl h) (MemoOK_nil h h) hrb
  have hEsh : EShape h (deepCopyEs h [] coll).1 coll (deepCopyEs h [] coll).2.2 :=
    hspec.2.2
  obtain ⟨p, hplook, hplt, hpget⟩ :=
    EShape_alookup_cmd h (deepCopyEs h [] coll).1 hEsh k r hlook
  have hAeq : (heapGet (deepCopyEs h [] coll).1 p).aliases = (heapGet h r).aliases := by
    rw [hpget]
  have hTA : topAliases (deepCopyEs h [] coll).1 (deepCopyEs h [] coll).2.2
      = topAliases h coll := EShape_topAliases h _ hEsh
  have hk1 : alookup (buildAliases h coll).2 k = some (.cmd p) := by
    rw [show (buildAliases h coll).2
      = aliasLoop (deepCopyEs h [] coll).1 (deepCopyEs h [] coll).2.2
          (deepCopyEs h [] coll).2.2 from rfl]
    rw [aliasLoop_not_alias _ k _ _ (by rw [hTA]; exact hkal), hplook]
  obtain ⟨t1, t2, hdec, _⟩ := alookup_decomp (deepCopyEs h [] coll).2.2 k (.cmd p) hplook
  have hsplit : topAliases (deepCopyEs h [] coll).1 (deepCopyEs h [] coll).2.2
      = topAliases (deepCopyEs h [] coll).1 t1
        ++ ((heapGet (deepCopyEs h [] coll).1 p).aliases
            ++ topAliases (deepCopyEs h [] coll).1 t2) := by
    rw [hdec, topAliases_append, topAliases_cons_cmd]
  have hnodup1 : (topAliases (deepCopyEs h [] coll).1 (deepCopyEs h [] coll).2.2).Nodup := by
    rw [hTA]
    exact hnodupal
  have hAsub : ∀ a, a ∈ (heapGet h r).aliases →
      a ∈ topAliases (deepCopyEs h [] coll).1 (deepCopyEs h [] coll).2.2 := by
    intro a ha
    rw [hsplit]
    exact List.mem_append_right _ (List.mem_append_left _ (hAeq ▸ ha))
  have hAnott2 : ∀ a, a ∈ (heapGet h r).aliases →
      a ∉ topAliases (deepCopyEs h [] coll).1 t2 := by
    intro a ha hat2
    rw [hsplit] at hnodup1
    exact List.disjoint_of_nodup_append hnodup1.of_append_right (hAeq ▸ ha) hat2
  have halias : ∀ a, a ∈ (heapGet h r).aliases →
      alookup (buildAliases h coll).2 a = some (.cmd p) := by
    intro a ha
    rw [show (buildAliases h coll).2
      = aliasLoop (deepCopyEs h [] coll).1 (deepCopyEs h [] coll).2.2
          (deepCopyEs h [] coll).2.2 from rfl]
    conv =>
      lhs
      rw [hdec]
    exact aliasLoop_alias _ a t1 k p t2 _ (hAeq ▸ ha) (hAnott2 a ha)
  have hwfexp : wfE (buildAliases h coll).2 = true :=
    aliasLoop_wf _ _ _ (wfE_shape h _ hEsh hwf)
  obtain ⟨res, hmg, hc, _⟩ := deepMergeT_ok_of_wf (buildAliases h coll).2 [] hwfexp
    (fun _ _ => rfl)
  have hloop : refreshLoop h [] [(cname, coll)] = .ok ((buildAliases h coll).1, res) := by
    rw [refreshLoop_cons, hmg]
    rfl
  have hrefresh : CmdSession.refresh ⟨h, [(cname, coll)], m0, c0⟩ =
      .ok ⟨(buildAliases h coll).1, [(cname, coll)], res, buildComplE res⟩ :=
    refresh_eq_of_loop _ ((buildAliases h coll).1, res) hloop
  refine ⟨_, p, hrefresh, ?_, hc k p hk1, fun a ha => hc a p (halias a ha), ?_⟩
  · rw [List.nodup_cons]
    constructor
    · intro hkA
      exact hkal (by rw [← hTA]; exact hAsub k hkA)
    · rw [hsplit] at hnodup1
      rw [← hAeq]
      exact hnodup1.of_append_right.of_append_left
  · rw [show (⟨(buildAliases h coll).1, [(cname, coll)], res, buildComplE res⟩
      : CmdSession).heap = (deepCopyEs h [] coll).1 from rfl]
    exact hpget

/-- The `go` command with two aliases. -/
def cmdAl : Command := ⟨"go", ["g", "run"], true, fun _ => none⟩

theorem c5_witness :
    ∃ (s : CmdSession) (r' : Nat),
      CmdSession.refresh ⟨[cmdAl], [("__init__", [("go", CmdTree.cmd 0)])], [], []⟩ = .ok s
      ∧ ("go" :: (heapGet [cmdAl] 0).aliases).Nodup
      ∧ alookup s.merged "go" = some (.cmd r')
      ∧ (∀ a, a ∈ (heapGet [cmdAl] 0).aliases → alookup s.merged a = some (.cmd r'))
      ∧ heapGet s.heap r' = heapGet [cmdAl] 0 :=
  c5_aliases_share_instance [cmdAl] [("go", .cmd 0)] "go" 0 "__init__" [] []
    rfl rfl rfl (by decide) (by decide)

/-- A Command named `c` carrying alias `x`, used nested inside a sub-tree. -/
def cmdNested : Command := ⟨"c", ["x"], true, fun _ => none⟩

/-- Claim C6 counterexample: rebuilding a session whose only collection
nests Command `c` (alias `x`) inside sub-tree `sub` yields a merged
namespace whose `sub` level contains only `c` -- the copied nested
Command still declares alias `x`, yet no `x` entry was added at its
level (nor anywhere else). -/
theorem c6_counterexample :
    CmdSession.refresh
        ⟨[cmdNested], [("__init__", [("sub", CmdTree.node [("c", CmdTree.cmd 0)])])], [], []⟩
      = .ok ⟨[cmdNested, cmdNested],
          [("__init__", [("sub", CmdTree.node [("c", CmdTree.cmd 0)])])],
          [("sub", CmdTree.node [("c", CmdTree.cmd 1)])],
          [("sub", Compl.sub [("c", Compl.mark)])]⟩
    ∧ (heapGet [cmdNested, cmdNested] 1).aliases = ["x"]
    ∧ alookup [("c", CmdTree.cmd 1)] "x" = none :=
  ⟨rfl, rfl, rfl⟩

/-- Claim C6 (amended): `__build_aliases` iterates only the snapshot of
top-level values, so aliases are expanded for top-level Commands only; a
sub-tree entry survives alias expansion as its deep copy with exactly the
same keys -- no alias entry is ever added for a Command nested inside a
sub-tree, at any level. -/
theorem c6_amended_aliases_top_level_only (h : Heap) (coll : Entries) (k : String)
    (sub : Entries)
    (hrb : refsBelowEs h.length coll = true)
    (hlook : alookup coll k = some (.node sub))
    (hkal : k ∉ topAliases h coll) :
    ∃ sub', alookup (buildAliases h coll).2 k = some (.node sub')
      ∧ dkeys sub' = dkeys sub := by
  have hspec := deepCopyEs_spec h coll h [] (List.prefix_refl h) (MemoOK_nil h h) hrb
  have hEsh := hspec.2.2
  obtain ⟨sub', hlook', hsub⟩ := EShape_alookup_node h _ hEsh k sub hlook
  have hTA := EShape_topAliases h _ hEsh
  refine ⟨sub', ?_, EShape_dkeys h _ hsub⟩
  rw [show (buildAliases h coll).2
    = aliasLoop (deepCopyEs h [] coll).1 (deepCopyEs h [] coll).2.2
        (deepCopyEs h [] coll).2.2 from rfl]
  rw [aliasLoop_not_alias _ k _ _ (by rw [hTA]; exact hkal)]
  exact hlook'

theorem c6_witness :
    ∃ sub', alookup (buildAliases [cmdNested]
        [("sub", CmdTree.node [("c", CmdTree.cmd 0)])]).2 "sub" = some (.node sub')
      ∧ dkeys sub' = dkeys [("c", CmdTree.cmd 0)] :=
  c6_amended_aliases_top_level_only [cmdNested] [("sub", .node [("c", .cmd 0)])] "sub"
    [("c", .cmd 0)] rfl rfl (by decide)

end Hans
